import Mathlib

/-!
Verification of the afterglow repository (an APA102 ambient-lighting engine)
against its natural-language specification.

The development shallowly embeds the two core source files:

* `src/led.rs` — the `APA102DataFrame` wire encoding, the `LEDStrip` state
  container with its lazily cached SPI serialization;
* `src/afterglow.rs` — `build_segment_map` (pixel-to-segment geometry) and the
  per-frame aggregation loop in `main` (sum-of-squares accumulation followed by
  per-segment root-mean-square finalization).

Machine integers are modelled as `Nat`/`Int`.  `u8` pixel channels and color
bytes are naturals that the source keeps below 256; `u32` colors are naturals
below 2^32 (hypotheses state the bound where it matters).  Fallible code
(Rust panics: failed `assert!`, out-of-bounds indexing, integer division by
zero, and checked-arithmetic overflow) is modelled with `Option`, `none`
standing for an aborted computation.
-/

/-- Sequences an option-valued function over a list: `some` of the list of
results when every call succeeds, `none` as soon as one call fails.  Used to
model loops that push results into a `Vec` but may panic partway. -/
def optTraverse (f : α → Option β) : List α → Option (List β)
  | [] => some []
  | a :: l =>
    match f a with
    | none => none
    | some b =>
      match optTraverse f l with
      | none => none
      | some bs => some (b :: bs)

/-! ## Model of `src/led.rs` -/

/-- Transcribes `APA102DataFrame::led_frame`: `data.to_be_bytes()` splits the
`u32` into big-endian bytes `[byte3, r, g, b]`, the top byte being discarded.
For `color < 2^32` the three kept bytes are the base-256 digits below. -/
def led_frame (color : Nat) : Nat × Nat × Nat :=
  ((color / 2 ^ 16) % 2 ^ 8, (color / 2 ^ 8) % 2 ^ 8, color % 2 ^ 8)

/-- Transcribes `APA102DataFrame::start_frame_spi_data`: `[0x00; 4]`. -/
def start_frame_spi_data : List Nat := [0, 0, 0, 0]

/-- Transcribes `APA102DataFrame::end_frame_spi_data`: `[0xff; 4]`. -/
def end_frame_spi_data : List Nat := [255, 255, 255, 255]

/-- Transcribes `APA102DataFrame::get_spi_data`: a fixed `0xff` brightness
byte followed by blue, green, red. -/
def frame_spi_data (f : Nat × Nat × Nat) : List Nat :=
  [255, f.2.2, f.2.1, f.1]

/-- Model of `LEDStrip<N>`: the `data` array of `APA102DataFrame`s (as
`(r, g, b)` triples, with `N = data.length`) and the `LazyCell` SPI cache
(`none` when the cell is empty). -/
structure LEDStrip where
  data : List (Nat × Nat × Nat)
  spiCache : Option (List Nat)

/-- Transcribes the cache-miss path of `LEDStrip::get_spi_data`: a `Vec` is
filled by extending with the start frame, then one data frame per LED in
order, then `(N + 1) / 2` end frames.  (`Vec::with_capacity` only
preallocates; it does not affect the contents.) -/
def compute_spi_data (data : List (Nat × Nat × Nat)) : List Nat :=
  let afterLeds :=
    data.foldl (fun acc f => acc ++ frame_spi_data f) start_frame_spi_data
  (List.range ((data.length + 1) / 2)).foldl
    (fun acc _ => acc ++ end_frame_spi_data) afterLeds

/-- Transcribes `LEDStrip::new_with_data`: `assert!(N > 0)` (modelled as
`none` on violation), then each `u32` is converted by `led_frame` and the
cache starts empty. -/
def new_with_data (colors : List Nat) : Option LEDStrip :=
  if colors.length = 0 then none
  else some { data := colors.map led_frame, spiCache := none }

/-- Transcribes `LEDStrip::new`: `new_with_data([0; N])`. -/
def strip_new (n : Nat) : Option LEDStrip :=
  new_with_data (List.replicate n 0)

/-- Transcribes `LEDStrip::get_spi_data`: if the cell is unfilled, compute the
bytes and fill it; return the cell contents (paired with the possibly updated
strip, since filling the `LazyCell` mutates observable state). -/
def get_spi_data (s : LEDStrip) : List Nat × LEDStrip :=
  match s.spiCache with
  | some d => (d, s)
  | none =>
    let d := compute_spi_data s.data
    (d, { s with spiCache := some d })

/-- Transcribes `LEDStrip::get_led`: `assert!(index < N)` then return the
`(r, g, b)` triple at `index`.  The failed assertion (a panic, before any
observable effect; `get_led` takes `&self` and can never mutate) is `none`. -/
def get_led (s : LEDStrip) (index : Nat) : Option (Nat × Nat × Nat) :=
  s.data[index]?

/-- Transcribes `LEDStrip::set_led`: `assert!(index < N)` fires before any
mutation (so a failing call, modelled as `none`, leaves no successor state);
on success the slot is overwritten with `led_frame color` and the `LazyCell`
cache is reset to empty (the source replaces a filled cell with a fresh one;
an unfilled cell is already empty). -/
def set_led (s : LEDStrip) (index : Nat) (color : Nat) : Option LEDStrip :=
  if index < s.data.length then
    some { data := s.data.set index (led_frame color), spiCache := none }
  else none

/-- Well-formed strip states: the lazy cache, when filled, holds exactly the
serialization of the current data — the invariant maintained by every
`LEDStrip` operation. -/
def StripWF (s : LEDStrip) : Prop :=
  s.spiCache = none ∨ s.spiCache = some (compute_spi_data s.data)

/-! ## Model of `build_segment_map` (`src/afterglow.rs`)

The geometric test `dx.hypot(dy) >= edge.into()` compares the correctly
computed hypotenuse of two exactly representable integers against an exactly
representable integer; since all quantities are nonnegative it is modelled as
the exact integer comparison `edge ^ 2 ≤ dx ^ 2 + dy ^ 2` (squaring both
sides of `edge ≤ √(dx² + dy²)`).

The transcendental part, `((dy.atan2(dx) + π) * N / τ).floor() as usize`
(a saturating float-to-integer cast, hence a natural number), cannot be
evaluated exactly; it is abstracted as a parameter `rawSeg : Int → Int → Nat`
of the pixel position offsets `(dx, dy)`, and every theorem below holds for
all such functions — the source clamps the value with `.min(num_leds - 1)`,
so no verified property depends on it.

Overflow of the `usize` subtraction `num_leds - 1` (reached whenever
`num_leds = 0` and the pixel lies outside the dead zone) is an arithmetic
overflow, a program error that Rust's checked arithmetic turns into a panic;
it is modelled as `none`. -/

/-- Per-pixel body of the `build_segment_map` loop: compute the offsets
`dx = half_width - x`, `dy = y - half_height`; pixels inside the dead-zone
disc map to `None`; otherwise the floored scaled angle (`rawSeg dx dy`) is
clamped with `min (num_leds - 1)`, the subtraction failing for
`num_leds = 0`. -/
def segment_for_pixel (rawSeg : Int → Int → Nat) (numLeds : Nat)
    (halfW halfH edge : Int) (x y : Int) : Option (Option Nat) :=
  let dx := halfW - x
  let dy := y - halfH
  if edge ^ 2 ≤ dx ^ 2 + dy ^ 2 then
    match numLeds with
    | 0 => none
    | m + 1 => some (some (min (rawSeg dx dy) m))
  else some none

/-- Row-major pixel coordinate list produced by the nested
`for y in 0..height { for x in 0..width { … } }` loops. -/
def pixel_grid (width height : Nat) : List (Int × Int) :=
  (List.range height).flatMap fun y =>
    (List.range width).map fun x => (Int.ofNat x, Int.ofNat y)

/-- Transcribes `build_segment_map`: `half_width = width / 2`,
`half_height = height / 2`, `edge = min(half_width, half_height) / 2`, then
one table entry per pixel in row-major order; `none` models the loop panicking
partway (the `num_leds - 1` overflow). -/
def build_segment_map (rawSeg : Int → Int → Nat) (numLeds width height : Nat) :
    Option (List (Option Nat)) :=
  let halfW : Int := (width : Int) / 2
  let halfH : Int := (height : Int) / 2
  let edge : Int := min halfW halfH / 2
  optTraverse (fun p => segment_for_pixel rawSeg numLeds halfW halfH edge p.1 p.2)
    (pixel_grid width height)

/-- Table entry produced for one pixel when `numLeds = m + 1` (so that the
clamp `min (rawSeg dx dy) m` transcribes `.min(num_leds - 1)`). -/
def seg_entry (rawSeg : Int → Int → Nat) (m : Nat) (halfW halfH edge : Int)
    (p : Int × Int) : Option Nat :=
  if edge ^ 2 ≤ (halfW - p.1) ^ 2 + (p.2 - halfH) ^ 2 then
    some (min (rawSeg (halfW - p.1) (p.2 - halfH)) m)
  else none

/-! ## Model of the frame-aggregation loop in `main` (`src/afterglow.rs`)

The camera buffer is a `u8` slice; `decoded_image.chunks_exact(3)` yields the
complete 3-byte pixels, ignoring a 1- or 2-byte remainder. -/

/-- Transcribes `chunks_exact(3)`: the list of complete `(r, g, b)` pixels,
any 1–2 trailing bytes dropped. -/
def chunks3 : List Nat → List (Nat × Nat × Nat)
  | r :: g :: b :: rest => (r, g, b) :: chunks3 rest
  | _ => []

/-- Transcribes the per-pixel accumulation loop: for the pixel at `index`,
look up `segment_map[index]` (out-of-range indexing panics: `none`); an
unmapped pixel is skipped; otherwise read `counts[segment]` (panic if out of
range; `led_values` and `counts` both have length `NUM_LEDS` in the source,
so the later `led_values[segment]` access is guarded the same way), store the
squared channels into `led_values[segment]` when the count is zero, add them
otherwise, and increment the count.  Structural recursion on the remaining
pixels, carrying the running pixel index. -/
def agg_pass (segMap : List (Option Nat)) :
    List (Nat × Nat × Nat) → List Nat → Nat → List (Nat × Nat × Nat) →
      Option (List (Nat × Nat × Nat) × List Nat)
  | vals, counts, _, [] => some (vals, counts)
  | vals, counts, index, p :: rest =>
    match segMap[index]? with
    | none => none
    | some none => agg_pass segMap vals counts (index + 1) rest
    | some (some seg) =>
      match counts[seg]? with
      | none => none
      | some c =>
        let sq := (p.1 ^ 2, p.2.1 ^ 2, p.2.2 ^ 2)
        if c = 0 then
          agg_pass segMap (vals.set seg sq) (counts.set seg (c + 1)) (index + 1) rest
        else
          match vals[seg]? with
          | none => none
          | some v =>
            agg_pass segMap
              (vals.set seg (v.1 + sq.1, v.2.1 + sq.2.1, v.2.2 + sq.2.2))
              (counts.set seg (c + 1)) (index + 1) rest

/-- Accumulation over a whole frame, starting from the zeroed
`led_values`/`counts` arrays of length `numLeds` and pixel index 0. -/
def pixel_pass (segMap : List (Option Nat)) (buffer : List Nat) (numLeds : Nat) :
    Option (List (Nat × Nat × Nat) × List Nat) :=
  agg_pass segMap (List.replicate numLeds (0, 0, 0)) (List.replicate numLeds 0)
    0 (chunks3 buffer)

/-- Newton-iteration step for the integer square root, with explicit fuel so
that it is structurally recursive and evaluates by kernel reduction
(`fuel ≥ guess` always suffices, as the guess strictly decreases). -/
def sqrt_iter : Nat → Nat → Nat → Nat
  | 0, _, guess => guess
  | fuel + 1, n, guess =>
    let next := (guess + n / guess) / 2
    if next < guess then sqrt_iter fuel n next else guess

/-- Floor of the real square root of a natural number — the same Newton
iteration as `Nat.sqrt`, made structurally recursive via fuel;
`sqrt_floor_eq_sqrt` below proves it equal to `Nat.sqrt`. -/
def sqrt_floor (n : Nat) : Nat :=
  if n ≤ 1 then n else sqrt_iter n n (n / 2)

/-- Transcribes one iteration of the output loop:
`((sum / count) as f64).sqrt() as u32` per channel.  `sum / count` is the
truncating `u64` division, panicking (`none`) when `count = 0`; the quotient
is at most 65025 (a mean of squared `u8` channels), so the `f64` conversion
is exact and the truncating `as u32` cast of the correctly rounded `f64`
square root is the integer square-root floor, `sqrt_floor`. -/
def finalize_led (v : Nat × Nat × Nat) (c : Nat) : Option (Nat × Nat × Nat) :=
  if c = 0 then none
  else some (sqrt_floor (v.1 / c), sqrt_floor (v.2.1 / c), sqrt_floor (v.2.2 / c))

/-- Transcribes the output loop `for (index, led_value) in
led_values.iter().enumerate()`: `counts[index]` is read positionally alongside
`led_values[index]` (panicking, `none`, if `counts` is exhausted first), and
each LED's color is computed by `finalize_led`. -/
def finalize : List (Nat × Nat × Nat) → List Nat → Option (List (Nat × Nat × Nat))
  | [], _ => some []
  | _ :: _, [] => none
  | v :: vs, c :: cs =>
    match finalize_led v c with
    | none => none
    | some col =>
      match finalize vs cs with
      | none => none
      | some cols => some (col :: cols)

/-- One full Frame-Aggregator tick: the accumulation pass followed by the
per-segment finalization; `none` models any panic along the way. -/
def aggregate_frame (segMap : List (Option Nat)) (buffer : List Nat)
    (numLeds : Nat) : Option (List (Nat × Nat × Nat)) :=
  match pixel_pass segMap buffer numLeds with
  | none => none
  | some (vals, counts) => finalize vals counts

/-! ### Mathematical reading of the aggregation (for the claims) -/

/-- The pixels of the frame that the segment map sends to segment `i` (the
map and the pixel list are traversed in the same order; a too-short pixel
list pairs only its own prefix). -/
def segment_pixels (segMap : List (Option Nat)) (chunks : List (Nat × Nat × Nat))
    (i : Nat) : List (Nat × Nat × Nat) :=
  (segMap.zip chunks).filterMap fun sp =>
    if sp.1 = some i then some sp.2 else none

/-- Per-channel sums of squares over a pixel list. -/
def sum_squares (l : List (Nat × Nat × Nat)) : Nat × Nat × Nat :=
  ((l.map fun p => p.1 ^ 2).sum,
   (l.map fun p => p.2.1 ^ 2).sum,
   (l.map fun p => p.2.2 ^ 2).sum)

/-- Predicate transcribing the specification's per-channel formula
`n = round(sqrt(s / c))` with real division and rounding to the nearest
integer (half rounding up): `n - 1/2 ≤ √(s/c) < n + 1/2`.  Multiplying by 2
and squaring (all quantities nonnegative) gives the integer characterization
below; for `n = 0` the truncated subtraction makes the lower bound trivially
true, matching `round x = 0` for `x ∈ [0, 1/2)`. -/
def is_round_sqrt_div (s c n : Nat) : Prop :=
  c * (2 * n - 1) ^ 2 ≤ 4 * s ∧ 4 * s < c * (2 * n + 1) ^ 2

instance (s c n : Nat) : Decidable (is_round_sqrt_div s c n) := by
  unfold is_round_sqrt_div; infer_instance

/-! # Theorems -/

/-! ### Traversal lemmas -/

theorem optTraverse_eq_none_of_mem {f : α → Option β} {l : List α} {a : α}
    (ha : a ∈ l) (hf : f a = none) : optTraverse f l = none := by
  induction l with
  | nil => cases ha
  | cons x l ih =>
    rcases List.mem_cons.mp ha with rfl | hmem
    · simp [optTraverse, hf]
    · unfold optTraverse
      cases hfx : f x with
      | none => rfl
      | some b => rw [ih hmem]

theorem optTraverse_eq_map {f : α → Option β} {g : α → β} {l : List α}
    (h : ∀ a ∈ l, f a = some (g a)) : optTraverse f l = some (l.map g) := by
  induction l with
  | nil => rfl
  | cons x l ih =>
    have hx := h x (List.mem_cons_self x l)
    have hrest := ih fun a ha => h a (List.mem_cons_of_mem x ha)
    simp [optTraverse, hx, hrest]

/-! ### Serialization lemmas -/

theorem foldl_append_eq_flatMap (f : α → List β) :
    ∀ (l : List α) (init : List β),
      l.foldl (fun acc a => acc ++ f a) init = init ++ l.flatMap f := by
  intro l
  induction l with
  | nil => simp
  | cons x l ih => intro init; simp [List.foldl_cons, ih, List.flatMap_cons]

theorem foldl_append_const (e : List β) :
    ∀ (k : Nat) (init : List β),
      (List.range k).foldl (fun acc _ => acc ++ e) init =
        init ++ (List.replicate k e).flatten := by
  intro k
  induction k with
  | zero => simp
  | succ k ih =>
    intro init
    rw [List.range_succ, List.foldl_append, ih, List.replicate_succ' k e]
    simp

/-- Closed form of the serializer: start frame, one 4-byte frame per LED in
strip order, then `(N + 1) / 2` end frames. -/
theorem compute_spi_data_eq (data : List (Nat × Nat × Nat)) :
    compute_spi_data data =
      start_frame_spi_data ++ data.flatMap frame_spi_data ++
        (List.replicate ((data.length + 1) / 2) end_frame_spi_data).flatten := by
  unfold compute_spi_data
  rw [foldl_append_const, foldl_append_eq_flatMap]

theorem length_flatMap_frame (data : List (Nat × Nat × Nat)) :
    (data.flatMap frame_spi_data).length = 4 * data.length := by
  induction data with
  | nil => rfl
  | cons f l ih =>
    rw [List.flatMap_cons, List.length_append, ih]
    simp [frame_spi_data]
    omega

/-! ### Segment-map lemmas -/

theorem pixel_grid_length (w h : Nat) : (pixel_grid w h).length = w * h := by
  induction h with
  | zero => rfl
  | succ h ih =>
    unfold pixel_grid at ih ⊢
    rw [List.range_succ, List.flatMap_append, List.length_append, ih,
      List.flatMap_cons, List.flatMap_nil, List.append_nil, List.length_map,
      List.length_range]
    ring

theorem pixel_grid_getElem (w h x y : Nat) (hx : x < w) (hy : y < h) :
    (pixel_grid w h)[y * w + x]? = some ((x : Int), (y : Int)) := by
  induction h with
  | zero => omega
  | succ h ih =>
    have hlen := pixel_grid_length w h
    unfold pixel_grid at ih hlen ⊢
    rw [List.range_succ, List.flatMap_append]
    rcases Nat.lt_or_ge y h with hyh | hyh
    · rw [List.getElem?_append_left ?bound]
      · exact ih hyh
      case bound =>
        rw [hlen]
        have e1 : (y + 1) * w ≤ h * w := Nat.mul_le_mul_right w hyh
        have e2 : (y + 1) * w = y * w + w := by ring
        have e3 : h * w = w * h := Nat.mul_comm h w
        omega
    · have hyeq : y = h := by omega
      have e3 : w * h = y * w := by rw [hyeq, Nat.mul_comm]
      rw [List.getElem?_append_right (by rw [hlen]; omega)]
      rw [hlen, List.flatMap_cons, List.flatMap_nil, List.append_nil]
      have hidx : y * w + x - w * h = x := by omega
      rw [hidx, List.getElem?_map, List.getElem?_range hx, hyeq]
      rfl

theorem segment_for_pixel_succ (rawSeg : Int → Int → Nat) (m : Nat)
    (halfW halfH edge x y : Int) :
    segment_for_pixel rawSeg (m + 1) halfW halfH edge x y =
      some (seg_entry rawSeg m halfW halfH edge (x, y)) := by
  unfold segment_for_pixel seg_entry
  by_cases hc : edge ^ 2 ≤ (halfW - x) ^ 2 + (y - halfH) ^ 2
  · simp only [if_pos hc]
  · simp only [if_neg hc]

theorem build_segment_map_succ (rawSeg : Int → Int → Nat) (m w h : Nat) :
    build_segment_map rawSeg (m + 1) w h =
      some ((pixel_grid w h).map
        (seg_entry rawSeg m ((w : Int) / 2) ((h : Int) / 2)
          (min ((w : Int) / 2) ((h : Int) / 2) / 2))) := by
  unfold build_segment_map
  refine optTraverse_eq_map ?_
  intro p _
  rw [segment_for_pixel_succ]

/-- C3: SegmentMap construction with `N = 0` fails fatally at construction
time for every positive width and height: the first pixel outside the dead
zone (the corner pixel `(0, 0)` always is, since
`hypot(half_w, half_h) ≥ min(half_w, half_h) / 2`) evaluates `num_leds - 1`,
and the `usize` subtraction overflows — a panic under Rust's checked
arithmetic.  The property holds for every value of the floating-point angle
computation `rawSeg`. -/
theorem segment_map_rejects_zero_leds (rawSeg : Int → Int → Nat) (w h : Nat)
    (hw : 0 < w) (hh : 0 < h) :
    build_segment_map rawSeg 0 w h = none := by
  unfold build_segment_map
  refine optTraverse_eq_none_of_mem (a := (Int.ofNat 0, Int.ofNat 0)) ?_ ?_
  · unfold pixel_grid
    rw [List.mem_flatMap]
    exact ⟨0, List.mem_range.mpr hh, List.mem_map.mpr ⟨0, List.mem_range.mpr hw, rfl⟩⟩
  · have h2 : (0 : Int) ≤ (w : Int) / 2 := Int.ediv_nonneg (by positivity) (by norm_num)
    have h3 : (0 : Int) ≤ (h : Int) / 2 := Int.ediv_nonneg (by positivity) (by norm_num)
    have hedge0 : (0 : Int) ≤ min ((w : Int) / 2) ((h : Int) / 2) / 2 :=
      Int.ediv_nonneg (le_min h2 h3) (by norm_num)
    have hedgele : min ((w : Int) / 2) ((h : Int) / 2) / 2 ≤ (w : Int) / 2 :=
      calc min ((w : Int) / 2) ((h : Int) / 2) / 2
          ≤ min ((w : Int) / 2) ((h : Int) / 2) := Int.ediv_le_self 2 (le_min h2 h3)
        _ ≤ (w : Int) / 2 := min_le_left _ _
    have hcond : (min ((w : Int) / 2) ((h : Int) / 2) / 2) ^ 2 ≤
        ((w : Int) / 2 - (Int.ofNat 0, Int.ofNat 0).1) ^ 2 +
          ((Int.ofNat 0, Int.ofNat 0).2 - (h : Int) / 2) ^ 2 := by
      have e0 : (Int.ofNat 0, Int.ofNat 0).1 = (0 : Int) := rfl
      have e0' : (Int.ofNat 0, Int.ofNat 0).2 = (0 : Int) := rfl
      rw [e0, e0', sub_zero, zero_sub]
      calc (min ((w : Int) / 2) ((h : Int) / 2) / 2) ^ 2
          ≤ ((w : Int) / 2) ^ 2 := pow_le_pow_left₀ hedge0 hedgele 2
        _ ≤ ((w : Int) / 2) ^ 2 + (-((h : Int) / 2)) ^ 2 :=
            le_add_of_nonneg_right (by positivity)
    unfold segment_for_pixel
    simp only [if_pos hcond]

theorem segment_map_rejects_zero_leds_witness :
    build_segment_map (fun _ _ => 0) 0 1 1 = none :=
  segment_map_rejects_zero_leds (fun _ _ => 0) 1 1 (by decide) (by decide)

/-- C7: for every `N ≥ 1` and positive dimensions, the SegmentMap is built
successfully with exactly `width * height` entries, each of which is `None`
or `Some s` with `s < N` — the clamp `.min(num_leds - 1)` guarantees the
bound for every value of the floating-point angle computation `rawSeg`, in
particular for an angle within floating-point epsilon of `2π`. -/
theorem segment_map_length_and_range (rawSeg : Int → Int → Nat) (n w h : Nat)
    (hn : 1 ≤ n) (hw : 0 < w) (hh : 0 < h) :
    ∃ t, build_segment_map rawSeg n w h = some t ∧ t.length = w * h ∧
      ∀ e ∈ t, ∀ s, e = some s → s < n := by
  obtain ⟨m, rfl⟩ : ∃ m, n = m + 1 := ⟨n - 1, by omega⟩
  rw [build_segment_map_succ]
  refine ⟨_, rfl, ?_, ?_⟩
  · rw [List.length_map, pixel_grid_length]
  · intro e he s hs
    obtain ⟨p, _, rfl⟩ := List.mem_map.mp he
    unfold seg_entry at hs
    split at hs
    · cases hs
      omega
    · cases hs

theorem segment_map_length_and_range_witness :
    ∃ t, build_segment_map (fun _ _ => 0) 1 2 2 = some t ∧ t.length = 2 * 2 ∧
      ∀ e ∈ t, ∀ s, e = some s → s < 1 :=
  segment_map_length_and_range (fun _ _ => 0) 1 2 2 (by decide) (by decide) (by decide)

/-- C4 counterexample: for `N = 1`, `width = height = 2` (so
`min(width, height) ≥ 2` as the claim requires), `half_width = half_height = 1`
and `edge = 1 / 2 = 0`, so the dead-zone test `hypot(0, 0) ≥ 0` holds at the
frame-center pixel `(1, 1)` (row-major index `(2/2)*2 + 2/2 = 3`) and it is
mapped to `Some 0`, not `None`.  (For `N = 1` the clamp forces every mapped
entry to `Some 0` whatever the angle computation returns, so the concrete
`rawSeg` below loses no generality.) -/
theorem center_pixel_counterexample :
    build_segment_map (fun _ _ => 0) 1 2 2 =
        some [some 0, some 0, some 0, some 0] ∧
    [some 0, some 0, some 0, some 0][(2 / 2) * 2 + 2 / 2]? = some (some 0) ∧
    some (some 0) ≠ some (none : Option Nat) := by
  refine ⟨by decide, by decide, by decide⟩

/-- C4 (amended): the frame-center pixel `(width / 2, height / 2)` maps to
`None` for every `N ≥ 1` whenever `min(width, height) ≥ 4` — that bound (not
the claimed `≥ 2`) is what makes `edge = min(width/2, height/2)/2 ≥ 1`
positive, and the center has `dx = dy = 0 < edge`. -/
theorem center_pixel_unmapped (rawSeg : Int → Int → Nat) (n w h : Nat)
    (hn : 1 ≤ n) (hmin : 4 ≤ min w h) :
    ∃ t, build_segment_map rawSeg n w h = some t ∧
      t[(h / 2) * w + w / 2]? = some none := by
  obtain ⟨m, rfl⟩ : ∃ m, n = m + 1 := ⟨n - 1, by omega⟩
  rw [build_segment_map_succ]
  refine ⟨_, rfl, ?_⟩
  rw [List.getElem?_map,
    pixel_grid_getElem w h (w / 2) (h / 2) (by omega) (by omega)]
  rw [Option.map_some']
  have e1 : ((w : Int)) / 2 = ((w / 2 : Nat) : Int) := (Int.natCast_div w 2).symm
  have e2 : ((h : Int)) / 2 = ((h / 2 : Nat) : Int) := (Int.natCast_div h 2).symm
  have hw2 : (2 : Int) ≤ ((w / 2 : Nat) : Int) := by
    have : 2 ≤ w / 2 := by omega
    exact_mod_cast this
  have hh2 : (2 : Int) ≤ ((h / 2 : Nat) : Int) := by
    have : 2 ≤ h / 2 := by omega
    exact_mod_cast this
  have hedge : (1 : Int) ≤ min ((w : Int) / 2) ((h : Int) / 2) / 2 := by
    rw [Int.le_ediv_iff_mul_le (by norm_num)]
    rw [e1, e2]
    exact le_min (by linarith) (by linarith)
  unfold seg_entry
  rw [if_neg]
  have edx : (w : Int) / 2 - (((w / 2 : Nat) : Int), ((h / 2 : Nat) : Int)).1 = 0 := by
    rw [e1]; ring
  have edy : (((w / 2 : Nat) : Int), ((h / 2 : Nat) : Int)).2 - (h : Int) / 2 = 0 := by
    rw [e2]; ring
  rw [edx, edy]
  nlinarith [hedge]

theorem center_pixel_unmapped_witness :
    ∃ t, build_segment_map (fun _ _ => 0) 3 5 4 = some t ∧
      t[(4 / 2) * 5 + 5 / 2]? = some none :=
  center_pixel_unmapped (fun _ _ => 0) 3 5 4 (by decide) (by decide)

/-! ### LED-strip claims -/

/-- C2: for every strip of `N ≥ 1` LEDs the serialized stream is exactly four
`0x00` start bytes, then for each LED in strip order the four bytes
`0xFF, blue, green, red`, then `(N + 1) / 2` (truncating division) end frames
of four `0xFF` bytes each. -/
theorem spi_stream_layout (data : List (Nat × Nat × Nat))
    (h1 : 1 ≤ data.length) :
    (get_spi_data { data := data, spiCache := none }).1 =
      [0, 0, 0, 0] ++ (data.flatMap fun f => [255, f.2.2, f.2.1, f.1]) ++
        (List.replicate ((data.length + 1) / 2) [255, 255, 255, 255]).flatten := by
  show compute_spi_data data = _
  rw [compute_spi_data_eq]
  rfl

theorem spi_stream_layout_witness :
    (get_spi_data { data := [(75, 128, 64)], spiCache := none }).1 =
      [0x00, 0x00, 0x00, 0x00, 0xFF, 0x40, 0x80, 0x4B, 0xFF, 0xFF, 0xFF, 0xFF] :=
  (spi_stream_layout [(75, 128, 64)] (by decide)).trans (by decide)

/-- C8: both `get_led` and `set_led` fail with the out-of-bounds assertion on
every index `≥ N`; the assertion fires before any mutation, so the failing
call (modelled as `none`: the panic aborts without producing a successor
state) leaves the strip's colors and cached serialization untouched. -/
theorem get_set_out_of_bounds (s : LEDStrip) (i c : Nat)
    (h : s.data.length ≤ i) :
    get_led s i = none ∧ set_led s i c = none := by
  constructor
  · exact List.getElem?_eq_none h
  · unfold set_led
    rw [if_neg (by omega)]

theorem get_set_out_of_bounds_witness :
    get_led { data := [(1, 2, 3)], spiCache := none } 1 = none ∧
    set_led { data := [(1, 2, 3)], spiCache := none } 1 7 = none :=
  get_set_out_of_bounds { data := [(1, 2, 3)], spiCache := none } 1 7 (by decide)

/-- C10: for every in-range index and every 32-bit color, `set_led` followed
by `get_led` returns exactly the three low big-endian bytes
`((c >>> 16) % 256, (c >>> 8) % 256, c % 256)`; the top 8 bits of the `u32`
are discarded by `led_frame`. -/
theorem set_led_get_led_truncates (s : LEDStrip) (i c : Nat) (hc : c < 2 ^ 32)
    (s' : LEDStrip) (h : set_led s i c = some s') :
    get_led s' i = some ((c >>> 16) % 256, (c >>> 8) % 256, c % 256) := by
  unfold set_led at h
  by_cases hi : i < s.data.length
  · rw [if_pos hi] at h
    cases h
    unfold get_led
    show (s.data.set i (led_frame c))[i]? = _
    rw [List.getElem?_set_self (by simpa using hi)]
    unfold led_frame
    rw [Nat.shiftRight_eq_div_pow, Nat.shiftRight_eq_div_pow]
    norm_num
  · rw [if_neg hi] at h
    cases h

theorem set_led_get_led_truncates_witness :
    get_led { data := [(0x4B, 0x80, 0x40)], spiCache := none } 0 =
      some ((0xAB4B8040 >>> 16) % 256, (0xAB4B8040 >>> 8) % 256, 0xAB4B8040 % 256) :=
  set_led_get_led_truncates { data := [(9, 9, 9)], spiCache := none } 0 0xAB4B8040
    (by norm_num) { data := [(0x4B, 0x80, 0x40)], spiCache := none } (by rfl)

/-- Re-serializing after overwriting slot `i` changes only the 4-byte block
at offset `4 + 4 * i`: both byte streams decompose around that block with a
common prefix and a common suffix. -/
theorem compute_spi_data_set (data : List (Nat × Nat × Nat)) (i : Nat)
    (f : Nat × Nat × Nat) (hi : i < data.length) :
    ∃ pre suf,
      compute_spi_data data = pre ++ frame_spi_data data[i] ++ suf ∧
      compute_spi_data (data.set i f) = pre ++ frame_spi_data f ++ suf ∧
      pre.length = 4 + 4 * i := by
  refine ⟨start_frame_spi_data ++ (data.take i).flatMap frame_spi_data,
    (data.drop (i + 1)).flatMap frame_spi_data ++
      (List.replicate ((data.length + 1) / 2) end_frame_spi_data).flatten,
    ?_, ?_, ?_⟩
  · conv_lhs =>
      rw [compute_spi_data_eq,
        show data.flatMap frame_spi_data =
            (data.take i ++ data[i] :: data.drop (i + 1)).flatMap
              frame_spi_data by
          rw [← List.drop_eq_getElem_cons hi, List.take_append_drop]]
    rw [List.flatMap_append, List.flatMap_cons]
    simp [List.append_assoc]
  · rw [compute_spi_data_eq, List.length_set,
      List.set_eq_take_append_cons_drop, if_pos hi,
      List.flatMap_append, List.flatMap_cons]
    simp [List.append_assoc]
  · rw [List.length_append, length_flatMap_frame, List.length_take,
      Nat.min_eq_left (Nat.le_of_lt hi)]
    rfl

/-- C9: for every well-formed strip, in-range index `i`, and new color:
serialize, `set_led i`, serialize again — the two byte streams decompose as
`pre ++ mid ++ suf` and `pre ++ mid' ++ suf` with `pre.length = 4 + 4 * i`
and `mid.length = mid'.length = 4`, i.e. they can differ only within the
4-byte window `[4 + 4 * i, 4 + 4 * i + 4)` and every byte outside it is
identical. -/
theorem set_led_localizes_bytes (s : LEDStrip) (i color : Nat)
    (hwf : StripWF s)
    (b1 : List Nat) (s1 : LEDStrip) (h1 : get_spi_data s = (b1, s1))
    (s2 : LEDStrip) (h2 : set_led s1 i color = some s2)
    (b2 : List Nat) (s3 : LEDStrip) (h3 : get_spi_data s2 = (b2, s3)) :
    ∃ pre mid mid' suf,
      b1 = pre ++ mid ++ suf ∧ b2 = pre ++ mid' ++ suf ∧
      pre.length = 4 + 4 * i ∧ mid.length = 4 ∧ mid'.length = 4 := by
  have hb1 : b1 = compute_spi_data s.data ∧ s1.data = s.data := by
    rcases hwf with hcache | hcache <;>
      · unfold get_spi_data at h1
        rw [hcache] at h1
        cases h1
        exact ⟨rfl, rfl⟩
  obtain ⟨hb1, hs1⟩ := hb1
  unfold set_led at h2
  rw [hs1] at h2
  by_cases hi : i < s.data.length
  · rw [if_pos hi] at h2
    cases h2
    unfold get_spi_data at h3
    simp only at h3
    cases h3
    obtain ⟨pre, suf, hdec1, hdec2, hpre⟩ :=
      compute_spi_data_set s.data i (led_frame color) hi
    exact ⟨pre, frame_spi_data s.data[i], frame_spi_data (led_frame color), suf,
      hb1.trans hdec1, hdec2, hpre, rfl, rfl⟩
  · rw [if_neg hi] at h2
    cases h2

theorem set_led_localizes_bytes_witness :
    ∃ pre mid mid' suf,
      ([0, 0, 0, 0, 255, 3, 2, 1, 255, 6, 5, 4, 255, 255, 255, 255] : List Nat) =
        pre ++ mid ++ suf ∧
      ([0, 0, 0, 0, 255, 0, 0, 255, 255, 6, 5, 4, 255, 255, 255, 255] : List Nat) =
        pre ++ mid' ++ suf ∧
      pre.length = 4 + 4 * 0 ∧ mid.length = 4 ∧ mid'.length = 4 :=
  set_led_localizes_bytes { data := [(1, 2, 3), (4, 5, 6)], spiCache := none }
    0 0xFF0000 (Or.inl rfl)
    [0, 0, 0, 0, 255, 3, 2, 1, 255, 6, 5, 4, 255, 255, 255, 255]
    { data := [(1, 2, 3), (4, 5, 6)],
      spiCache := some [0, 0, 0, 0, 255, 3, 2, 1, 255, 6, 5, 4, 255, 255, 255, 255] }
    (by rfl)
    { data := [(255, 0, 0), (4, 5, 6)], spiCache := none } (by rfl)
    [0, 0, 0, 0, 255, 0, 0, 255, 255, 6, 5, 4, 255, 255, 255, 255]
    { data := [(255, 0, 0), (4, 5, 6)],
      spiCache := some [0, 0, 0, 0, 255, 0, 0, 255, 255, 6, 5, 4, 255, 255, 255, 255] }
    (by rfl)

/-! ### Aggregation lemmas -/

theorem sqrt_iter_eq (n : Nat) :
    ∀ (fuel guess : Nat), guess ≤ fuel →
      sqrt_iter fuel n guess = Nat.sqrt.iter n guess := by
  intro fuel
  induction fuel with
  | zero =>
    intro guess hg
    have hg0 : guess = 0 := by omega
    subst hg0
    rw [Nat.sqrt.iter]
    simp [sqrt_iter]
  | succ fuel ih =>
    intro guess hg
    rw [Nat.sqrt.iter]
    unfold sqrt_iter
    by_cases hlt : (guess + n / guess) / 2 < guess
    · rw [if_pos hlt, dif_pos hlt]
      exact ih _ (by omega)
    · rw [if_neg hlt, dif_neg hlt]

theorem sqrt_floor_eq_sqrt (n : Nat) : sqrt_floor n = Nat.sqrt n := by
  unfold sqrt_floor Nat.sqrt
  by_cases h1 : n ≤ 1
  · rw [if_pos h1, if_pos h1]
  · rw [if_neg h1, if_neg h1]
    exact sqrt_iter_eq n n (n / 2) (Nat.div_le_self n 2)

theorem chunks3_length : ∀ l : List Nat, (chunks3 l).length = l.length / 3
  | [] => rfl
  | [_] => by simp [chunks3]
  | [_, _] => by simp [chunks3]
  | r :: g :: b :: rest => by
    show (chunks3 rest).length + 1 = _
    rw [chunks3_length rest]
    show rest.length / 3 + 1 = (rest.length + 1 + 1 + 1) / 3
    omega

theorem agg_pass_overrun (segMap : List (Option Nat)) :
    ∀ (chunks : List (Nat × Nat × Nat)) (vals : List (Nat × Nat × Nat))
      (counts : List Nat) (index : Nat),
      index ≤ segMap.length → segMap.length < index + chunks.length →
      agg_pass segMap vals counts index chunks = none := by
  intro chunks
  induction chunks with
  | nil =>
    intro vals counts index hle hlt
    simp at hlt
    omega
  | cons p rest ih =>
    intro vals counts index hle hlt
    have hlt' : segMap.length < index + 1 + rest.length := by
      simp only [List.length_cons] at hlt
      omega
    by_cases hidx : index < segMap.length
    · cases hseg : segMap[index]? with
      | none =>
        rw [List.getElem?_eq_none_iff] at hseg
        omega
      | some e =>
        cases e with
        | none =>
          simp only [agg_pass, hseg]
          exact ih _ _ _ hidx hlt'
        | some seg =>
          cases hc : counts[seg]? with
          | none => simp only [agg_pass, hseg, hc]
          | some c =>
            by_cases hc0 : c = 0
            · subst hc0
              simp only [agg_pass, hseg, hc, if_pos rfl]
              exact ih _ _ _ hidx hlt'
            · cases hv : vals[seg]? with
              | none => simp only [agg_pass, hseg, hc, if_neg hc0, hv]
              | some v =>
                simp only [agg_pass, hseg, hc, if_neg hc0, hv]
                exact ih _ _ _ hidx hlt'
    · simp only [agg_pass, List.getElem?_eq_none (show segMap.length ≤ index by omega)]

/-- C5 counterexample: a buffer of 3 bytes (one pixel) against a SegmentMap
of 2 entries (built for `width = 2, height = 1`, so `3*width*height = 6 ≠ 3`)
does not fail: the accumulation loop simply runs out of pixels after the
first map entry and the Aggregator completes, returning a color — the code
never checks the buffer length. -/
theorem aggregator_length_mismatch_counterexample :
    build_segment_map (fun _ _ => 0) 1 2 1 = some [some 0, some 0] ∧
    aggregate_frame [some 0, some 0] [10, 10, 10] 1 = some [(10, 10, 10)] ∧
    ([10, 10, 10] : List Nat).length ≠ 3 * (2 * 1) := by
  refine ⟨by decide, by decide, by decide⟩

/-- C5 (amended): the Aggregator only detects an over-long buffer: as soon as
the buffer holds more complete 3-byte pixels than the SegmentMap has entries
(length ≥ 3·|map| + 3), the pass indexes `segment_map` out of range and
fails fatally.  A too-short buffer (or 1–2 extra trailing bytes, dropped by
`chunks_exact`) is processed silently over the prefix of complete pixels. -/
theorem aggregator_overrun_fatal (segMap : List (Option Nat)) (buffer : List Nat)
    (n : Nat) (h : 3 * segMap.length + 3 ≤ buffer.length) :
    aggregate_frame segMap buffer n = none := by
  unfold aggregate_frame pixel_pass
  rw [agg_pass_overrun segMap (chunks3 buffer) _ _ 0 (by omega) ?_]
  rw [chunks3_length]
  omega

theorem aggregator_overrun_fatal_witness :
    aggregate_frame [some 0] [1, 1, 1, 2, 2, 2] 1 = none :=
  aggregator_overrun_fatal [some 0] [1, 1, 1, 2, 2, 2] 1 (by decide)

theorem lt_length_of_getElem?_some {l : List α} {i : Nat} {a : α}
    (h : l[i]? = some a) : i < l.length := by
  by_contra hcon
  push_neg at hcon
  rw [List.getElem?_eq_none hcon] at h
  cases h

theorem drop_cons_of_getElem {l : List (Option Nat)} {idx : Nat} {e : Option Nat}
    (h : l[idx]? = some e) : l.drop idx = e :: l.drop (idx + 1) := by
  have hlt : idx < l.length := lt_length_of_getElem?_some h
  have he : l[idx] = e := by
    have := List.getElem?_eq_getElem hlt
    rw [h] at this
    exact (Option.some.injEq _ _).mp this.symm
  rw [List.drop_eq_getElem_cons hlt, he]

theorem segment_pixels_nil (segMap : List (Option Nat)) (i : Nat) :
    segment_pixels segMap [] i = [] := by
  simp [segment_pixels]

theorem segment_pixels_cons (s : Option Nat) (sm : List (Option Nat))
    (p : Nat × Nat × Nat) (ch : List (Nat × Nat × Nat)) (i : Nat) :
    segment_pixels (s :: sm) (p :: ch) i =
      if s = some i then p :: segment_pixels sm ch i
      else segment_pixels sm ch i := by
  unfold segment_pixels
  rw [List.zip_cons_cons, List.filterMap_cons]
  by_cases hs : s = some i
  · simp [hs]
  · simp [hs]

theorem sum_squares_cons (p : Nat × Nat × Nat) (l : List (Nat × Nat × Nat)) :
    sum_squares (p :: l) =
      (p.1 ^ 2 + (sum_squares l).1, p.2.1 ^ 2 + (sum_squares l).2.1,
       p.2.2 ^ 2 + (sum_squares l).2.2) := by
  simp [sum_squares]

/-- Loop invariant of the accumulation pass, tracking one segment `i`: when
the pass completes, `counts[i]` has grown by the number of remaining pixels
mapped to `i` and `led_values[i]` by their per-channel sums of squares.  The
hypothesis `c = 0 → v = (0, 0, 0)` (true of the zero-initialized arrays)
makes the source's store-on-first-pixel branch equal to an addition. -/
theorem agg_pass_invariant (segMap : List (Option Nat)) (i : Nat) :
    ∀ (chunks : List (Nat × Nat × Nat)) (vals : List (Nat × Nat × Nat))
      (counts : List Nat) (index : Nat)
      (fin : List (Nat × Nat × Nat) × List Nat)
      (c : Nat) (v : Nat × Nat × Nat),
      agg_pass segMap vals counts index chunks = some fin →
      counts[i]? = some c → vals[i]? = some v → (c = 0 → v = (0, 0, 0)) →
      fin.2[i]? = some (c + (segment_pixels (segMap.drop index) chunks i).length) ∧
      fin.1[i]? = some
        (v.1 + (sum_squares (segment_pixels (segMap.drop index) chunks i)).1,
         v.2.1 + (sum_squares (segment_pixels (segMap.drop index) chunks i)).2.1,
         v.2.2 + (sum_squares (segment_pixels (segMap.drop index) chunks i)).2.2) := by
  intro chunks
  induction chunks with
  | nil =>
    intro vals counts index fin c v hpass hc hv hcv
    simp only [agg_pass] at hpass
    cases hpass
    rw [segment_pixels_nil]
    simp [sum_squares, hc, hv]
  | cons p rest ih =>
    intro vals counts index fin c v hpass hc hv hcv
    have hic : i < counts.length := lt_length_of_getElem?_some hc
    have hiv : i < vals.length := lt_length_of_getElem?_some hv
    cases hseg : segMap[index]? with
    | none =>
      simp only [agg_pass, hseg] at hpass
      cases hpass
    | some e =>
      have hdrop : segMap.drop index = e :: segMap.drop (index + 1) :=
        drop_cons_of_getElem hseg
      cases e with
      | none =>
        simp only [agg_pass, hseg] at hpass
        rw [hdrop, segment_pixels_cons, if_neg (by simp)]
        exact ih vals counts (index + 1) fin c v hpass hc hv hcv
      | some seg =>
        rw [hdrop, segment_pixels_cons]
        cases hcseg : counts[seg]? with
        | none =>
          simp only [agg_pass, hseg, hcseg] at hpass
          cases hpass
        | some cseg =>
          simp only [agg_pass, hseg, hcseg] at hpass
          by_cases hsegi : seg = i
          · subst hsegi
            have hcc : c = cseg := by
              have := hc.symm.trans hcseg
              exact (Option.some.injEq _ _).mp this
            subst hcc
            rw [if_pos rfl]
            by_cases h0 : c = 0
            · rw [if_pos h0] at hpass
              have hv0 : v = (0, 0, 0) := hcv h0
              subst hv0
              subst h0
              obtain ⟨ih1, ih2⟩ := ih _ _ (index + 1) fin 1
                (p.1 ^ 2, p.2.1 ^ 2, p.2.2 ^ 2) hpass
                (by rw [List.getElem?_set_self hic])
                (by rw [List.getElem?_set_self hiv])
                (by omega)
              constructor
              · rw [ih1, List.length_cons]
                simp only [Option.some.injEq]
                omega
              · rw [ih2, sum_squares_cons]
                simp only [Prod.mk.injEq, Option.some.injEq]
                refine ⟨by omega, by omega, by omega⟩
            · rw [if_neg h0] at hpass
              rw [hv] at hpass
              obtain ⟨ih1, ih2⟩ := ih _ _ (index + 1) fin (c + 1)
                (v.1 + p.1 ^ 2, v.2.1 + p.2.1 ^ 2, v.2.2 + p.2.2 ^ 2) hpass
                (by rw [List.getElem?_set_self hic])
                (by rw [List.getElem?_set_self hiv])
                (by omega)
              constructor
              · rw [ih1, List.length_cons]
                simp only [Option.some.injEq]
                omega
              · rw [ih2, sum_squares_cons]
                simp only [Prod.mk.injEq, Option.some.injEq]
                refine ⟨by omega, by omega, by omega⟩
          · rw [if_neg (by simp [hsegi])]
            by_cases h0 : cseg = 0
            · rw [if_pos h0] at hpass
              exact ih _ _ (index + 1) fin c v hpass
                (by rw [List.getElem?_set_ne (fun hne => hsegi hne)]; exact hc)
                (by rw [List.getElem?_set_ne (fun hne => hsegi hne)]; exact hv)
                hcv
            · rw [if_neg h0] at hpass
              cases hvseg : vals[seg]? with
              | none => rw [hvseg] at hpass; cases hpass
              | some vseg =>
                rw [hvseg] at hpass
                exact ih _ _ (index + 1) fin c v hpass
                  (by rw [List.getElem?_set_ne (fun hne => hsegi hne)]; exact hc)
                  (by rw [List.getElem?_set_ne (fun hne => hsegi hne)]; exact hv)
                  hcv

theorem finalize_none_of_zero (vals : List (Nat × Nat × Nat)) :
    ∀ (counts : List Nat) (i : Nat), i < vals.length → counts[i]? = some 0 →
      finalize vals counts = none := by
  induction vals with
  | nil =>
    intro counts i hi _
    simp at hi
  | cons v vs ih =>
    intro counts i hi hc
    cases counts with
    | nil => rfl
    | cons c cs =>
      cases i with
      | zero =>
        have hc0 : c = 0 := by simpa using hc
        subst hc0
        simp [finalize, finalize_led]
      | succ j =>
        have hc' : cs[j]? = some 0 := by simpa using hc
        have hj : j < vs.length := by simpa using hi
        simp only [finalize, ih cs j hj hc']
        cases hfl : finalize_led v c <;> rfl

theorem finalize_getElem (vals : List (Nat × Nat × Nat)) :
    ∀ (counts : List Nat) (out : List (Nat × Nat × Nat)) (i : Nat)
      (v : Nat × Nat × Nat) (c : Nat),
      finalize vals counts = some out →
      vals[i]? = some v → counts[i]? = some c →
      c ≠ 0 ∧ out[i]? = some (sqrt_floor (v.1 / c), sqrt_floor (v.2.1 / c),
        sqrt_floor (v.2.2 / c)) := by
  induction vals with
  | nil =>
    intro counts out i v c _ hv _
    simp at hv
  | cons v0 vs ih =>
    intro counts out i v c hf hv hc
    cases counts with
    | nil => cases hf
    | cons c0 cs =>
      cases hfl : finalize_led v0 c0 with
      | none =>
        simp only [finalize, hfl] at hf
        cases hf
      | some col =>
        cases hrest : finalize vs cs with
        | none =>
          simp only [finalize, hfl, hrest] at hf
          cases hf
        | some cols =>
          simp only [finalize, hfl, hrest, Option.some.injEq] at hf
          subst hf
          cases i with
          | zero =>
            have hvv : v0 = v := by simpa using hv
            have hcc : c0 = c := by simpa using hc
            subst hvv
            subst hcc
            unfold finalize_led at hfl
            by_cases h0 : c0 = 0
            · rw [if_pos h0] at hfl
              cases hfl
            · rw [if_neg h0] at hfl
              refine ⟨h0, ?_⟩
              simpa using hfl.symm
          | succ j =>
            have hv' : vs[j]? = some v := by simpa using hv
            have hc' : cs[j]? = some c := by simpa using hc
            have := ih cs cols j v c hrest hv' hc'
            simpa using this

theorem agg_pass_lengths (segMap : List (Option Nat)) :
    ∀ (chunks : List (Nat × Nat × Nat)) (vals : List (Nat × Nat × Nat))
      (counts : List Nat) (index : Nat)
      (fin : List (Nat × Nat × Nat) × List Nat),
      agg_pass segMap vals counts index chunks = some fin →
      fin.1.length = vals.length ∧ fin.2.length = counts.length := by
  intro chunks
  induction chunks with
  | nil =>
    intro vals counts index fin hpass
    simp only [agg_pass] at hpass
    cases hpass
    exact ⟨rfl, rfl⟩
  | cons p rest ih =>
    intro vals counts index fin hpass
    cases hseg : segMap[index]? with
    | none =>
      simp only [agg_pass, hseg] at hpass
      cases hpass
    | some e =>
      cases e with
      | none =>
        simp only [agg_pass, hseg] at hpass
        exact ih _ _ _ _ hpass
      | some seg =>
        cases hcseg : counts[seg]? with
        | none =>
          simp only [agg_pass, hseg, hcseg] at hpass
          cases hpass
        | some cseg =>
          simp only [agg_pass, hseg, hcseg] at hpass
          by_cases h0 : cseg = 0
          · rw [if_pos h0] at hpass
            have := ih _ _ _ _ hpass
            simpa using this
          · rw [if_neg h0] at hpass
            cases hvseg : vals[seg]? with
            | none =>
              rw [hvseg] at hpass
              cases hpass
            | some vseg =>
              rw [hvseg] at hpass
              have := ih _ _ _ _ hpass
              simpa using this

/-- C6 counterexample: with `N = 2` and a SegmentMap (built for
`width = 2, height = 1`) that sends every pixel to segment 0, segment 1 ends
the pass with `count = 0`; the finalization loop then computes `sum / 0` — an
integer division by zero, a panic — so the Aggregator fails instead of
producing an output color for every segment.  The buffer length `6 = 3*2*1`
is exactly right, so nothing else can be blamed. -/
theorem zero_count_counterexample :
    build_segment_map (fun _ _ => 0) 2 2 1 = some [some 0, some 0] ∧
    ([1, 1, 1, 2, 2, 2] : List Nat).length = 3 * (2 * 1) ∧
    pixel_pass [some 0, some 0] [1, 1, 1, 2, 2, 2] 2 =
      some ([(5, 5, 5), (0, 0, 0)], [2, 0]) ∧
    aggregate_frame [some 0, some 0] [1, 1, 1, 2, 2, 2] 2 = none := by
  refine ⟨by decide, by decide, by decide, by decide⟩

/-- C6 (amended): a segment whose count is zero after the accumulation pass
makes the Frame Aggregator fail fatally (the `sum / count` division by zero
panics in the finalization loop); aggregation does not complete and no output
is produced.  The source has no fallback policy for empty segments. -/
theorem zero_count_segment_fatal (segMap : List (Option Nat)) (buffer : List Nat)
    (n i : Nat) (vals : List (Nat × Nat × Nat)) (counts : List Nat)
    (hpass : pixel_pass segMap buffer n = some (vals, counts))
    (hc : counts[i]? = some 0) :
    aggregate_frame segMap buffer n = none := by
  unfold aggregate_frame
  rw [hpass]
  have hlen := agg_pass_lengths segMap (chunks3 buffer) _ _ 0 (vals, counts) hpass
  have hi : i < counts.length := lt_length_of_getElem?_some hc
  refine finalize_none_of_zero vals counts i ?_ hc
  simp only [List.length_replicate] at hlen
  omega

theorem zero_count_segment_fatal_witness :
    aggregate_frame [some 0, some 0] [3, 3, 3, 4, 4, 4] 2 = none :=
  zero_count_segment_fatal [some 0, some 0] [3, 3, 3, 4, 4, 4] 2 1
    [(25, 25, 25), (0, 0, 0)] [2, 0] (by decide) (by decide)

/-- C1 counterexample: aggregating the pixels `(0,0,0)` and `(4,4,4)` into
one segment gives per-channel sum of squares 16 over count 2; the code
computes `sqrt(16 / 2) = sqrt(8)` truncated, i.e. 2, but
`round(sqrt(16 / 2)) = round(2.828…) = 3` — the output is the floor, not the
round, of the root of the (truncated) mean square. -/
theorem aggregator_round_counterexample :
    build_segment_map (fun _ _ => 0) 1 2 1 = some [some 0, some 0] ∧
    aggregate_frame [some 0, some 0] [0, 0, 0, 4, 4, 4] 1 = some [(2, 2, 2)] ∧
    segment_pixels [some 0, some 0] (chunks3 [0, 0, 0, 4, 4, 4]) 0 =
      [(0, 0, 0), (4, 4, 4)] ∧
    sum_squares [((0 : Nat), (0 : Nat), (0 : Nat)), (4, 4, 4)] = (16, 16, 16) ∧
    ¬ is_round_sqrt_div 16 2 2 ∧ is_round_sqrt_div 16 2 3 := by
  refine ⟨by decide, by decide, by decide, by decide, by decide, by decide⟩

/-- C1 (amended): for every segment (all have count > 0 when aggregation
succeeds), the Frame Aggregator's output channel is
`Nat.sqrt(sum_of_squares / count)` — the floor of the square root of the
truncating integer division — over exactly that segment's mapped pixels;
in particular aggregating `(0,0,0)` and `(255,255,255)` still yields
`Nat.sqrt(65025 / 2) = Nat.sqrt 32512 = 180` in every channel. -/
theorem aggregator_rms_floor (segMap : List (Option Nat)) (buffer : List Nat)
    (n : Nat) (out : List (Nat × Nat × Nat)) (i : Nat)
    (hagg : aggregate_frame segMap buffer n = some out) (hi : i < n) :
    0 < (segment_pixels segMap (chunks3 buffer) i).length ∧
    out[i]? = some
      (Nat.sqrt ((sum_squares (segment_pixels segMap (chunks3 buffer) i)).1 /
        (segment_pixels segMap (chunks3 buffer) i).length),
       Nat.sqrt ((sum_squares (segment_pixels segMap (chunks3 buffer) i)).2.1 /
        (segment_pixels segMap (chunks3 buffer) i).length),
       Nat.sqrt ((sum_squares (segment_pixels segMap (chunks3 buffer) i)).2.2 /
        (segment_pixels segMap (chunks3 buffer) i).length)) := by
  unfold aggregate_frame at hagg
  cases hpass : pixel_pass segMap buffer n with
  | none =>
    rw [hpass] at hagg
    cases hagg
  | some st =>
    obtain ⟨vals, counts⟩ := st
    rw [hpass] at hagg
    have hfin : finalize vals counts = some out := hagg
    unfold pixel_pass at hpass
    have hinv := agg_pass_invariant segMap i (chunks3 buffer)
      (List.replicate n (0, 0, 0)) (List.replicate n 0) 0 (vals, counts)
      0 (0, 0, 0) hpass
      (by rw [List.getElem?_replicate_of_lt hi])
      (by rw [List.getElem?_replicate_of_lt hi])
      (fun _ => rfl)
    rw [List.drop_zero] at hinv
    obtain ⟨hcounts, hvals⟩ := hinv
    simp only [Nat.zero_add] at hcounts hvals
    obtain ⟨hcne, hout⟩ := finalize_getElem vals counts out i _ _ hfin hvals hcounts
    refine ⟨by omega, ?_⟩
    rw [hout]
    simp only [sqrt_floor_eq_sqrt]

theorem aggregator_rms_floor_witness :
    0 < (segment_pixels [some 0, some 0] (chunks3 [0, 0, 0, 255, 255, 255]) 0).length ∧
    [((180 : Nat), (180 : Nat), (180 : Nat))][0]? = some
      (Nat.sqrt ((sum_squares (segment_pixels [some 0, some 0]
          (chunks3 [0, 0, 0, 255, 255, 255]) 0)).1 /
        (segment_pixels [some 0, some 0] (chunks3 [0, 0, 0, 255, 255, 255]) 0).length),
       Nat.sqrt ((sum_squares (segment_pixels [some 0, some 0]
          (chunks3 [0, 0, 0, 255, 255, 255]) 0)).2.1 /
        (segment_pixels [some 0, some 0] (chunks3 [0, 0, 0, 255, 255, 255]) 0).length),
       Nat.sqrt ((sum_squares (segment_pixels [some 0, some 0]
          (chunks3 [0, 0, 0, 255, 255, 255]) 0)).2.2 /
        (segment_pixels [some 0, some 0] (chunks3 [0, 0, 0, 255, 255, 255]) 0).length)) :=
  aggregator_rms_floor [some 0, some 0] [0, 0, 0, 255, 255, 255] 1
    [(180, 180, 180)] 0 (by decide) (by decide)
